import Mathlib

/-
Verification of the FuzClass name-resolution core (src/fuz.py) against its
natural-language specification.

Modelling conventions (shallow embedding):
  * Python strings are lists of characters (`Name`).  The attribute names this
    library handles are ASCII identifiers; `Char.toLower` coincides with
    Python's `str.lower` on them.
  * Fallible Python code is embedded in `Except PyErr`.  In particular
    `_off_limits` evaluates `name[0]` before the length test, so it raises
    `IndexError` on the empty name; this is modelled faithfully.
  * The external `fuzzy.DMetaphone` collaborator (used by `_get_name_sound`)
    is a black box per the spec; it is modelled as a parameter
    `sound : Name → Name`, with `[]` standing for an empty/absent code.
  * The object state is its instance dictionary: an insertion-ordered list of
    (name, value) bindings, as in CPython.  `dir(self)` is the union of the
    class attribute names and the instance attribute names, deduplicated and
    sorted lexicographically by code point, which is what Python's `dir`
    builtin returns.
-/

set_option maxRecDepth 10000
set_option maxHeartbeats 1600000

namespace FuzVerify

/-- Python strings, modelled as lists of characters. -/
abbrev Name := List Char

/-- Python `s.lower()` (ASCII case folding, which is all that arises for the
attribute identifiers this library handles). -/
def pyLower (s : Name) : Name := s.map Char.toLower

/-- Python `s[1:-1]`: the characters strictly between the first and the last
character.  Python slicing never raises; on strings of length at most 2 the
slice is empty. -/
def pyInner (s : Name) : Name := (s.drop 1).dropLast

/-- Python `set(s)` for a string `s`, modelled as a duplicate-free list of its
characters. -/
def innerSet (s : Name) : Name := (pyInner s).dedup

/-- Python `len(a.symmetric_difference(b))` for two character sets given as
duplicate-free lists: the number of characters in exactly one of the two. -/
def symmDiffCard (a b : Name) : Nat :=
  (a.filter (fun c => decide (¬ c ∈ b))).length +
    (b.filter (fun c => decide (¬ c ∈ a))).length

/-- The Python exceptions the embedded code can raise: `IndexError` (from
`name[0]` on an empty name in `_off_limits`) and `AttributeError`, which
carries the owning class identity and the attribute name (src/fuz.py line
144). -/
inductive PyErr : Type where
  | indexError : PyErr
  | attributeError (cls : Name) (attr : Name) : PyErr
  deriving DecidableEq

/-- src/fuz.py lines 37-45, `_off_limits`:
`return name[0] == "_" or len(name) < 2`.
Python evaluates `name[0]` first, so the empty name raises `IndexError`
instead of being reported as protected. -/
def off_limits (name : Name) : Except PyErr Bool :=
  match name with
  | [] => Except.error PyErr.indexError
  | c :: rest => Except.ok (decide (c = '_') || decide ((c :: rest).length < 2))

/-- The guard as a Boolean predicate on names that do not crash it: a name is
eligible for fuzzy matching iff it is nonempty, does not start with `'_'` and
has length at least 2.  (`off_limits n = .ok false` exactly when
`eligibleB n = true`, for nonempty `n`.) -/
def eligibleB : Name → Bool
  | [] => false
  | c :: rest => !(decide (c = '_') || decide ((c :: rest).length < 2))

/-- src/fuz.py lines 47-58, `_get_name_sound`: the external `fuzzy.DMetaphone`
encoder applied to the name and decoded to a string.  The encoder itself is
out of scope per the spec, so it is a parameter; `[]` models an empty/absent
code. -/
def get_name_sound (sound : Name → Name) (name : Name) : Name := sound name

/-- The loop condition of src/fuz.py lines 92-99, on the already lower-cased
strings: exact lower-cased equality, or same first and last character with
the symmetric difference of the inner-character sets below 2.  The `headD` /
`getLastD` defaults are never consulted: both strings come from names that
passed the off-limits guard, hence have length at least 2 (Python's
`attr_lower[0]` / `attr_lower[-1]` likewise only run on such names). -/
def orthoCond (name_lower attr_lower : Name) : Bool :=
  decide (attr_lower = name_lower) ||
    (decide (attr_lower.headD 'a' = name_lower.headD 'a') &&
     decide (attr_lower.getLastD 'a' = name_lower.getLastD 'a') &&
     decide (symmDiffCard (innerSet name_lower) (innerSet attr_lower) < 2))

/-- The orthographic loop of src/fuz.py lines 88-104: iterate the existing
attributes in order, testing the lower-cased version of each, and return the
first original-cased attribute whose lower-cased form satisfies the
condition (the `enumerate` index dance in the source recovers exactly the
original-cased entry at the matching position). -/
def orthoScan (name_lower : Name) (existing_attrs : List Name) : Option Name :=
  existing_attrs.find? (fun attr => orthoCond name_lower (pyLower attr))

/-- The phonetic loop of src/fuz.py lines 111-120: return the first existing
attribute whose sound equals the candidate's sound exactly. -/
def soundScan (sound : Name → Name) (name_sound : Name)
    (existing_attrs : List Name) : Option Name :=
  existing_attrs.find? (fun attr => decide (get_name_sound sound attr = name_sound))

/-- src/fuz.py line 78: `[a for a in dir(self) if not self._off_limits(a)]`.
The comprehension calls `_off_limits` on every entry left to right, so an
empty entry raises `IndexError`. -/
def filterOffLimits : List Name → Except PyErr (List Name)
  | [] => Except.ok []
  | a :: rest =>
    match off_limits a with
    | Except.error e => Except.error e
    | Except.ok b =>
      match filterOffLimits rest with
      | Except.error e => Except.error e
      | Except.ok rest' => Except.ok (if b then rest' else a :: rest')

/-- Python string comparison: lexicographic by code point.  This is the order
`sorted` and hence the `dir` builtin use. -/
def pyStrLe : Name → Name → Bool
  | [], _ => true
  | _ :: _, [] => false
  | a :: as, b :: bs => if a < b then true else if b < a then false else pyStrLe as bs

/-- The ordering relation on names induced by `pyStrLe`. -/
def nameLe (a b : Name) : Prop := pyStrLe a b = true

instance : DecidableRel nameLe := fun a b => Bool.decEq (pyStrLe a b) true

/-- Python `sorted` on a list of names (the order produced by `dir`). -/
def sortNames (l : List Name) : List Name := List.insertionSort nameLe l

/-- The attribute names contributed by the class side of `dir(self)` for a
plain `FuzClass` instance: the `object` dunders plus the three `FuzClass`
methods.  The exact membership of this list is irrelevant to every result
below; all that matters is that each entry is nonempty and starts with `'_'`,
so the off-limits filter removes all of them. -/
def classAttrNames : List Name :=
  ["__class__", "__delattr__", "__dict__", "__dir__", "__doc__", "__eq__",
   "__format__", "__ge__", "__getattr__", "__getattribute__", "__gt__",
   "__hash__", "__init__", "__init_subclass__", "__le__", "__lt__",
   "__module__", "__ne__", "__new__", "__reduce__", "__reduce_ex__",
   "__repr__", "__setattr__", "__sizeof__", "__str__", "__subclasshook__",
   "__weakref__", "_find_similar_attr", "_get_name_sound",
   "_off_limits"].map String.toList

/-- The instance dictionary: an insertion-ordered association list from
attribute names to values, as CPython keeps it. -/
abbrev State (V : Type) := List (Name × V)

variable {V : Type}

/-- The keys of the instance dictionary, in insertion (definition) order. -/
def stateKeys (st : State V) : List Name := st.map Prod.fst

/-- Dictionary lookup. -/
def storeRead (st : State V) (k : Name) : Option V :=
  match st with
  | [] => none
  | (k', v) :: rest => if k' = k then some v else storeRead rest k

/-- Dictionary assignment: overwrite in place if the key exists (keeping its
insertion-order position, as CPython dicts do), otherwise append. -/
def storeWrite (st : State V) (k : Name) (v : V) : State V :=
  match st with
  | [] => [(k, v)]
  | (k', v') :: rest =>
    if k' = k then (k, v) :: rest else (k', v') :: storeWrite rest k v

/-- Python `dir(self)`: the class attribute names together with the instance
attribute names, deduplicated and sorted alphabetically (the `dir` builtin
returns `sorted(...)` of the combined name set). -/
def dirList (st : State V) : List Name :=
  sortNames ((classAttrNames ++ stateKeys st).dedup)

/-- src/fuz.py lines 60-122, `_find_similar_attr`, with the result of
`dir(self)` passed in as `dirNames`.  Control flow follows the source: the
off-limits guard on the candidate, the filtered existing attributes, the
orthographic scan, then (`if name_sound:`) the phonetic scan, and finally the
candidate itself (`return name`, line 122). -/
def find_similar_attr (sound : Name → Name) (dirNames : List Name)
    (name : Name) : Except PyErr Name :=
  match off_limits name with
  | Except.error e => Except.error e
  | Except.ok true => Except.ok name
  | Except.ok false =>
    match filterOffLimits dirNames with
    | Except.error e => Except.error e
    | Except.ok existing_attrs =>
      match orthoScan (pyLower name) existing_attrs with
      | some attr => Except.ok attr
      | none =>
        let name_sound := get_name_sound sound name
        if name_sound = [] then Except.ok name
        else
          match soundScan sound name_sound existing_attrs with
          | some attr => Except.ok attr
          | none => Except.ok name

/-- The owning type identity carried by the missing-attribute error
(`self.__class__` in src/fuz.py line 144), modelled as a constant tag. -/
def fuzclassName : Name := "FuzClass".toList

/-- src/fuz.py lines 124-133, `__setattr__`: resolve the name, then write the
value under the resolved name.  The write goes to the instance dictionary;
CPython's interception of writes to class-level data descriptors (dunders
such as `__class__`) lies outside the spec's storage `write` boundary and is
not modelled. -/
def fuzSetattr (sound : Name → Name) (st : State V) (name : Name) (v : V) :
    Except PyErr (State V) :=
  match find_similar_attr sound (dirList st) name with
  | Except.error e => Except.error e
  | Except.ok new_name => Except.ok (storeWrite st new_name v)

/-- Attribute read, src/fuz.py lines 135-147 combined with Python's
attribute-access protocol: `__getattr__` only runs when normal lookup in the
instance dictionary fails; it resolves the name, raises `AttributeError`
(carrying the class identity and the originally requested name) when
resolution left the name unchanged, and otherwise reads the resolved name.
Reads of the class's own method names (all underscore-prefixed, outside the
value domain of the property store) are not modelled; results about reads
exclude them by hypothesis. -/
def fuzGetattr (sound : Name → Name) (st : State V) (name : Name) :
    Except PyErr V :=
  match storeRead st name with
  | some v => Except.ok v
  | none =>
    match find_similar_attr sound (dirList st) name with
    | Except.error e => Except.error e
    | Except.ok new_name =>
      if new_name = name then Except.error (PyErr.attributeError fuzclassName name)
      else
        match storeRead st new_name with
        | some v => Except.ok v
        | none => Except.error (PyErr.attributeError fuzclassName new_name)

/-- Run a sequence of attribute writes from a given state. -/
def applyOps (sound : Name → Name) : State V → List (Name × V) → Except PyErr (State V)
  | st, [] => Except.ok st
  | st, (n, v) :: ops =>
    match fuzSetattr sound st n v with
    | Except.error e => Except.error e
    | Except.ok st' => applyOps sound st' ops

/-- A state is reachable when some sequence of writes produces it from the
fresh object. -/
def Reachable (sound : Name → Name) (st : State V) : Prop :=
  ∃ ops : List (Name × V), applyOps sound ([] : State V) ops = Except.ok st

/-- A phonetic encoder that yields no code for any name (the spec allows the
encoder to return an empty/absent code). -/
def soundNil : Name → Name := fun _ => []

/-- An encoder giving `"the"` and `"teh"` one common nonempty code and no code
to anything else; used to witness the phonetic route of the amended scenario
claim. -/
def soundTh : Name → Name :=
  fun n => if n = ("the".toList) ∨ n = ("teh".toList) then ['T'] else []

/-- The inner-character set of a name after lower-casing, as a finite set;
written from the spec's step-3 wording for the refinement statement of the
orthographic condition. -/
def specInnerSet (x : Name) : Finset Char := ((pyLower x).drop 1).dropLast.toFinset

/-- The orthographic-match condition as the spec states it: lower-cased `e`
equals the lower-cased candidate, or the first characters match
case-insensitively, the last characters match case-insensitively, and the
symmetric difference of the sets of characters strictly between the first and
last character (of the lower-cased names, per the spec's step-3 preamble) has
fewer than 2 elements. -/
def specOrthoMatch (candidate e : Name) : Prop :=
  pyLower e = pyLower candidate ∨
    ((pyLower e).headD 'a' = (pyLower candidate).headD 'a' ∧
     (pyLower e).getLastD 'a' = (pyLower candidate).getLastD 'a' ∧
     (symmDiff (specInnerSet e) (specInnerSet candidate)).card < 2)

instance (c e : Name) : Decidable (specOrthoMatch c e) := by
  unfold specOrthoMatch; infer_instance

/-- Pairwise compatibility of two stored names: they do not match
orthographically, and their phonetic codes agree only when both are absent.
Every pair of distinct eligible names in a reachable store satisfies it,
because the write that stored the later one would otherwise have been
redirected onto the earlier one. -/
def PairOK (sound : Name → Name) (a b : Name) : Prop :=
  orthoCond (pyLower a) (pyLower b) = false ∧ (sound a = sound b → sound a = [])

/-- The invariant of reachable states: every stored name is nonempty, the
keys are distinct, and distinct eligible keys are pairwise incompatible. -/
def GoodState (sound : Name → Name) (st : State V) : Prop :=
  (∀ k ∈ stateKeys st, k ≠ []) ∧
  (stateKeys st).Nodup ∧
  List.Pairwise
    (fun a b => eligibleB a = true → eligibleB b = true → PairOK sound a b)
    (stateKeys st)

/-! ### Basic properties of the guard and the filter -/

theorem off_limits_of_ne_nil {n : Name} (h : n ≠ []) :
    off_limits n = Except.ok (!eligibleB n) := by
  cases n with
  | nil => exact absurd rfl h
  | cons c rest => simp [off_limits, eligibleB]

theorem off_limits_ok_elim {n : Name} {b : Bool}
    (h : off_limits n = Except.ok b) : n ≠ [] ∧ b = !eligibleB n := by
  cases n with
  | nil => simp [off_limits] at h
  | cons c rest =>
    refine ⟨by simp, ?_⟩
    have h' : (decide (c = '_') || decide ((c :: rest).length < 2)) = b := by
      simpa [off_limits] using h
    simp [eligibleB, ← h']

theorem eligibleB_ne_nil {n : Name} (h : eligibleB n = true) : n ≠ [] := by
  cases n with
  | nil => simp [eligibleB] at h
  | cons c rest => simp

theorem filterOffLimits_eq {l : List Name} (h : ∀ a ∈ l, a ≠ []) :
    filterOffLimits l = Except.ok (l.filter eligibleB) := by
  induction l with
  | nil => rfl
  | cons a rest ih =>
    have ha : a ≠ [] := h a (List.mem_cons_self a rest)
    have hrest := ih (fun x hx => h x (List.mem_cons_of_mem _ hx))
    rw [filterOffLimits, off_limits_of_ne_nil ha, hrest]
    cases hb : eligibleB a <;> simp [List.filter_cons, hb]

theorem filterOffLimits_ok_mem {l l' : List Name}
    (h : filterOffLimits l = Except.ok l') :
    ∀ x ∈ l', x ∈ l ∧ eligibleB x = true := by
  induction l generalizing l' with
  | nil =>
    rw [filterOffLimits] at h
    cases h
    intro x hx; cases hx
  | cons a rest ih =>
    rw [filterOffLimits] at h
    cases ho : off_limits a with
    | error e => rw [ho] at h; cases h
    | ok b =>
      rw [ho] at h
      cases hr : filterOffLimits rest with
      | error e => rw [hr] at h; cases h
      | ok rest' =>
        rw [hr] at h
        obtain ⟨hane, hbe⟩ := off_limits_ok_elim ho
        cases h
        intro x hx
        cases b with
        | true =>
          have hx' : x ∈ rest' := hx
          obtain ⟨hx1, hx2⟩ := ih hr x hx'
          exact ⟨List.mem_cons_of_mem _ hx1, hx2⟩
        | false =>
          have hx' : x ∈ a :: rest' := hx
          rcases List.mem_cons.mp hx' with h' | h'
          · subst h'
            refine ⟨List.mem_cons_self _ _, ?_⟩
            cases he : eligibleB x
            · rw [he] at hbe; simp at hbe
            · rfl
          · obtain ⟨hx1, hx2⟩ := ih hr x h'
            exact ⟨List.mem_cons_of_mem _ hx1, hx2⟩

/-! ### The dictionary operations -/

variable {V : Type}

theorem stateKeys_cons (k : Name) (v : V) (st : State V) :
    stateKeys ((k, v) :: st) = k :: stateKeys st := rfl

theorem storeRead_some_iff_mem {st : State V} {k : Name} :
    (∃ v, storeRead st k = some v) ↔ k ∈ stateKeys st := by
  induction st with
  | nil =>
    constructor
    · rintro ⟨v, hv⟩; cases hv
    · intro h; simp [stateKeys] at h
  | cons p rest ih =>
    obtain ⟨k', v'⟩ := p
    by_cases hk : k' = k
    · subst hk
      simp only [storeRead, if_pos rfl, stateKeys_cons, List.mem_cons]
      constructor
      · intro _; simp
      · intro _; exact ⟨v', rfl⟩
    · simp only [storeRead, if_neg hk, stateKeys_cons, List.mem_cons]
      rw [ih]
      constructor
      · intro h; exact Or.inr h
      · rintro (h | h)
        · exact absurd h.symm hk
        · exact h

theorem storeRead_none_iff_not_mem {st : State V} {k : Name} :
    storeRead st k = none ↔ ¬ k ∈ stateKeys st := by
  constructor
  · intro h hmem
    obtain ⟨v, hv⟩ := storeRead_some_iff_mem.mpr hmem
    rw [h] at hv; cases hv
  · intro h
    cases hr : storeRead st k with
    | none => rfl
    | some v => exact absurd (storeRead_some_iff_mem.mp ⟨v, hr⟩) h

theorem stateKeys_storeWrite_of_mem {st : State V} {k : Name} (v : V)
    (h : k ∈ stateKeys st) :
    stateKeys (storeWrite st k v) = stateKeys st := by
  induction st with
  | nil => cases h
  | cons p rest ih =>
    obtain ⟨k', v'⟩ := p
    by_cases hk : k' = k
    · subst hk; simp [storeWrite, stateKeys]
    · have hmem : k ∈ stateKeys rest := by
        rcases List.mem_cons.mp h with h' | h'
        · exact absurd h'.symm hk
        · exact h'
      simp only [storeWrite, if_neg hk, stateKeys_cons]
      rw [ih hmem]

theorem stateKeys_storeWrite_of_not_mem {st : State V} {k : Name} (v : V)
    (h : ¬ k ∈ stateKeys st) :
    stateKeys (storeWrite st k v) = stateKeys st ++ [k] := by
  induction st with
  | nil => rfl
  | cons p rest ih =>
    obtain ⟨k', v'⟩ := p
    by_cases hk : k' = k
    · exact absurd (hk ▸ List.mem_cons_self k' (stateKeys rest)) h
    · have hmem : ¬ k ∈ stateKeys rest := fun hm => h (List.mem_cons_of_mem _ hm)
      simp only [storeWrite, if_neg hk, stateKeys_cons]
      rw [ih hmem]
      rfl

theorem storeRead_storeWrite_self (st : State V) (k : Name) (v : V) :
    storeRead (storeWrite st k v) k = some v := by
  induction st with
  | nil => simp [storeWrite, storeRead]
  | cons p rest ih =>
    obtain ⟨k', v'⟩ := p
    by_cases hk : k' = k
    · subst hk; simp [storeWrite, storeRead]
    · simp [storeWrite, storeRead, hk, ih]

theorem storeRead_storeWrite_other {st : State V} {k k' : Name} (v : V)
    (h : k' ≠ k) :
    storeRead (storeWrite st k v) k' = storeRead st k' := by
  have hkk : ¬ (k = k') := fun hh => h hh.symm
  induction st with
  | nil =>
    simp only [storeWrite, storeRead]
    rw [if_neg hkk]
  | cons p rest ih =>
    obtain ⟨k'', v''⟩ := p
    by_cases hk : k'' = k
    · subst hk
      simp only [storeWrite, if_pos rfl, storeRead]
      rw [if_neg hkk, if_neg hkk]
    · simp only [storeWrite, if_neg hk, storeRead]
      by_cases hk2 : k'' = k'
      · rw [if_pos hk2, if_pos hk2]
      · rw [if_neg hk2, if_neg hk2, ih]

/-! ### The order used by Python's sorted and dir -/

theorem pyStrLe_refl : ∀ a : Name, pyStrLe a a = true
  | [] => rfl
  | x :: xs => by simp [pyStrLe, lt_irrefl, pyStrLe_refl xs]

theorem pyStrLe_total : ∀ a b : Name, pyStrLe a b = true ∨ pyStrLe b a = true
  | [], _ => Or.inl rfl
  | _ :: _, [] => Or.inr rfl
  | x :: xs, y :: ys => by
    rcases lt_trichotomy x y with h | h | h
    · left; simp [pyStrLe, h]
    · subst h
      rcases pyStrLe_total xs ys with ih | ih
      · left; simp [pyStrLe, lt_irrefl, ih]
      · right; simp [pyStrLe, lt_irrefl, ih]
    · right; simp [pyStrLe, h]

theorem pyStrLe_trans : ∀ {a b c : Name},
    pyStrLe a b = true → pyStrLe b c = true → pyStrLe a c = true
  | [], _, _, _, _ => rfl
  | _ :: _, [], _, h1, _ => by simp [pyStrLe] at h1
  | _ :: _, _ :: _, [], _, h2 => by simp [pyStrLe] at h2
  | x :: xs, y :: ys, z :: zs, h1, h2 => by
    by_cases hxy : x < y
    · by_cases hyz : y < z
      · simp [pyStrLe, lt_trans hxy hyz]
      · by_cases hzy : z < y
        · simp [pyStrLe, hyz, hzy] at h2
        · have : y = z := le_antisymm (not_lt.mp hzy) (not_lt.mp hyz)
          subst this
          simp [pyStrLe, hxy]
    · by_cases hyx : y < x
      · simp [pyStrLe, hxy, hyx] at h1
      · have hxy' : x = y := le_antisymm (not_lt.mp hyx) (not_lt.mp hxy)
        subst hxy'
        by_cases hxz : x < z
        · simp [pyStrLe, hxz]
        · by_cases hzx : z < x
          · simp [pyStrLe, hxz, hzx] at h2
          · have : x = z := le_antisymm (not_lt.mp hzx) (not_lt.mp hxz)
            subst this
            simp only [pyStrLe, if_neg hxz, if_neg (lt_irrefl x)] at h1 h2 ⊢
            exact pyStrLe_trans h1 h2

instance : IsTotal Name nameLe := ⟨fun a b => pyStrLe_total a b⟩

instance : IsTrans Name nameLe := ⟨fun _ _ _ h1 h2 => pyStrLe_trans h1 h2⟩

theorem nameLe_refl (a : Name) : nameLe a a := pyStrLe_refl a

/-! ### Properties of dir -/

theorem classAttrNames_ne_nil : ∀ a ∈ classAttrNames, a ≠ [] := by decide

theorem classAttrNames_not_eligible :
    ∀ a ∈ classAttrNames, eligibleB a = false := by decide

theorem mem_sortNames {l : List Name} {a : Name} :
    a ∈ sortNames l ↔ a ∈ l :=
  (List.perm_insertionSort nameLe l).mem_iff

theorem mem_dirList {st : State V} {a : Name} :
    a ∈ dirList st ↔ a ∈ classAttrNames ∨ a ∈ stateKeys st := by
  rw [dirList, mem_sortNames, List.mem_dedup, List.mem_append]

theorem dirList_ne_nil {st : State V} (h : ∀ k ∈ stateKeys st, k ≠ []) :
    ∀ a ∈ dirList st, a ≠ [] := by
  intro a ha
  rcases mem_dirList.mp ha with h' | h'
  · exact classAttrNames_ne_nil a h'
  · exact h a h'

theorem dirList_nodup (st : State V) : (dirList st).Nodup :=
  (List.perm_insertionSort nameLe _).symm.nodup (List.nodup_dedup _)

theorem dirList_sorted (st : State V) : List.Sorted nameLe (dirList st) :=
  List.sorted_insertionSort nameLe _

theorem mem_filter_dirList {st : State V} {a : Name} :
    a ∈ (dirList st).filter eligibleB ↔
      a ∈ stateKeys st ∧ eligibleB a = true := by
  rw [List.mem_filter, mem_dirList]
  constructor
  · rintro ⟨h1 | h1, h2⟩
    · rw [classAttrNames_not_eligible a h1] at h2; cases h2
    · exact ⟨h1, h2⟩
  · rintro ⟨h1, h2⟩
    exact ⟨Or.inr h1, h2⟩

theorem filterOffLimits_dirList {st : State V}
    (h : ∀ k ∈ stateKeys st, k ≠ []) :
    filterOffLimits (dirList st) = Except.ok ((dirList st).filter eligibleB) :=
  filterOffLimits_eq (dirList_ne_nil h)

/-! ### First-match scans -/

theorem find?_first {p : Name → Bool} :
    ∀ {l : List Name} {m : Name}, m ∈ l → p m = true →
      (∀ x ∈ l, p x = true → x = m) → l.find? p = some m := by
  intro l
  induction l with
  | nil => intro m hm; cases hm
  | cons a t ih =>
    intro m hm hpm huniq
    by_cases ha : p a = true
    · have ham : a = m := huniq a (List.mem_cons_self a t) ha
      rw [List.find?_cons_of_pos _ ha, ham]
    · have hma : m ≠ a := fun hh => ha (hh ▸ hpm)
      have hmt : m ∈ t := by
        rcases List.mem_cons.mp hm with h' | h'
        · exact absurd h' hma
        · exact h'
      rw [List.find?_cons_of_neg _ (by simpa using ha)]
      exact ih hmt hpm (fun x hx hpx => huniq x (List.mem_cons_of_mem _ hx) hpx)

theorem find?_min_of_sorted {p : Name → Bool} :
    ∀ {l : List Name} {r : Name}, List.Sorted nameLe l → l.find? p = some r →
      ∀ x ∈ l, p x = true → nameLe r x := by
  intro l
  induction l with
  | nil => intro r _ hr; cases hr
  | cons a t ih =>
    intro r hs hr x hx hpx
    have hst : List.Sorted nameLe t := hs.of_cons
    by_cases ha : p a = true
    · rw [List.find?_cons_of_pos _ ha] at hr
      cases hr
      rcases List.mem_cons.mp hx with h' | h'
      · subst h'; exact nameLe_refl x
      · exact List.rel_of_sorted_cons hs x h'
    · rw [List.find?_cons_of_neg _ (by simpa using ha)] at hr
      rcases List.mem_cons.mp hx with h' | h'
      · subst h'; exact absurd hpx ha
      · exact ih hst hr x h' hpx

/-! ### The orthographic condition -/

theorem symmDiffCard_comm (a b : Name) : symmDiffCard a b = symmDiffCard b a :=
  Nat.add_comm _ _

theorem decide_eq_comm {α : Type} [DecidableEq α] (a b : α) :
    decide (a = b) = decide (b = a) := by
  by_cases h : a = b
  · subst h; rfl
  · have h' : ¬ b = a := fun hh => h hh.symm
    simp [h, h']

theorem orthoCond_comm (x y : Name) : orthoCond x y = orthoCond y x := by
  unfold orthoCond
  rw [symmDiffCard_comm, decide_eq_comm y x, decide_eq_comm (y.headD 'a'),
    decide_eq_comm (y.getLastD 'a')]

theorem orthoCond_self (x : Name) : orthoCond x x = true := by
  unfold orthoCond
  simp

/-- The counting of the code's symmetric difference of two duplicate-free
character lists agrees with the cardinality of the symmetric difference of
the corresponding finite sets. -/
theorem symmDiffCard_dedup_eq_card (a b : Name) :
    symmDiffCard a.dedup b.dedup = (symmDiff a.toFinset b.toFinset).card := by
  rw [symmDiff_def, Finset.sup_eq_union,
    Finset.card_union_of_disjoint disjoint_sdiff_sdiff]
  have left : (a.dedup.filter (fun c => decide (¬ c ∈ b.dedup))).length =
      (a.toFinset \ b.toFinset).card := by
    have hnd : (a.dedup.filter (fun c => decide (¬ c ∈ b.dedup))).Nodup :=
      (List.nodup_dedup a).filter _
    have hts : (a.dedup.filter (fun c => decide (¬ c ∈ b.dedup))).toFinset =
        a.toFinset \ b.toFinset := by
      ext c
      simp [List.mem_toFinset, List.mem_filter, List.mem_dedup, Finset.mem_sdiff]
    rw [← List.toFinset_card_of_nodup hnd, hts]
  have right : (b.dedup.filter (fun c => decide (¬ c ∈ a.dedup))).length =
      (b.toFinset \ a.toFinset).card := by
    have hnd : (b.dedup.filter (fun c => decide (¬ c ∈ a.dedup))).Nodup :=
      (List.nodup_dedup b).filter _
    have hts : (b.dedup.filter (fun c => decide (¬ c ∈ a.dedup))).toFinset =
        b.toFinset \ a.toFinset := by
      ext c
      simp [List.mem_toFinset, List.mem_filter, List.mem_dedup, Finset.mem_sdiff]
    rw [← List.toFinset_card_of_nodup hnd, hts]
  rw [symmDiffCard, left, right]

/-- The code's loop condition on the lower-cased names coincides with the
spec's orthographic-match wording. -/
theorem orthoCond_iff_spec {c e : Name} :
    orthoCond (pyLower c) (pyLower e) = true ↔ specOrthoMatch c e := by
  unfold orthoCond specOrthoMatch specInnerSet
  simp only [Bool.or_eq_true, Bool.and_eq_true, decide_eq_true_eq]
  have hcard : symmDiffCard (innerSet (pyLower c)) (innerSet (pyLower e)) =
      (symmDiff ((pyLower e).drop 1).dropLast.toFinset
        ((pyLower c).drop 1).dropLast.toFinset).card := by
    rw [innerSet, innerSet, pyInner, pyInner,
      symmDiffCard_dedup_eq_card, symmDiff_comm]
  rw [hcard]
  tauto

theorem orthoCond_eq_decide (c e : Name) :
    orthoCond (pyLower c) (pyLower e) = decide (specOrthoMatch c e) := by
  cases hb : orthoCond (pyLower c) (pyLower e) with
  | true => simp [orthoCond_iff_spec.mp hb]
  | false =>
    have : ¬ specOrthoMatch c e := fun hs => by
      rw [orthoCond_iff_spec.mpr hs] at hb; cases hb
    simp [this]

/-! ### Unfolding and totality of the matcher -/

/-- Behaviour of `_find_similar_attr` on an eligible candidate once the
existing-name filter has been evaluated. -/
theorem find_similar_attr_eligible {sound : Name → Name} {dirNames : List Name}
    {name : Name} {elig : List Name}
    (h0 : off_limits name = Except.ok false)
    (hf : filterOffLimits dirNames = Except.ok elig) :
    find_similar_attr sound dirNames name =
      match orthoScan (pyLower name) elig with
      | some attr => Except.ok attr
      | none =>
        if get_name_sound sound name = [] then Except.ok name
        else
          match soundScan sound (get_name_sound sound name) elig with
          | some attr => Except.ok attr
          | none => Except.ok name := by
  rw [find_similar_attr, h0, hf]

/-- An off-limits candidate is returned unchanged. -/
theorem find_similar_attr_off {sound : Name → Name} {dirNames : List Name}
    {name : Name} (h : off_limits name = Except.ok true) :
    find_similar_attr sound dirNames name = Except.ok name := by
  simp only [find_similar_attr, h]

theorem find_similar_attr_err_guard {sound : Name → Name} {dirNames : List Name}
    {name : Name} {e : PyErr} (h : off_limits name = Except.error e) :
    find_similar_attr sound dirNames name = Except.error e := by
  simp only [find_similar_attr, h]

theorem find_similar_attr_err_filter {sound : Name → Name} {dirNames : List Name}
    {name : Name} {e : PyErr} (h0 : off_limits name = Except.ok false)
    (hf : filterOffLimits dirNames = Except.error e) :
    find_similar_attr sound dirNames name = Except.error e := by
  simp only [find_similar_attr, h0, hf]

theorem find_similar_attr_total {sound : Name → Name} {dirNames : List Name}
    {name : Name} (h1 : name ≠ []) (h2 : ∀ a ∈ dirNames, a ≠ []) :
    ∃ r, find_similar_attr sound dirNames name = Except.ok r := by
  cases hb : eligibleB name with
  | false =>
    refine ⟨name, find_similar_attr_off ?_⟩
    rw [off_limits_of_ne_nil h1, hb]; rfl
  | true =>
    have h0 : off_limits name = Except.ok false := by
      rw [off_limits_of_ne_nil h1, hb]; rfl
    rw [find_similar_attr_eligible h0 (filterOffLimits_eq h2)]
    cases orthoScan (pyLower name) (dirNames.filter eligibleB) with
    | some attr => exact ⟨attr, rfl⟩
    | none =>
      by_cases hs : get_name_sound sound name = []
      · exact ⟨name, by simp [hs]⟩
      · rw [if_neg hs]
        cases soundScan sound (get_name_sound sound name) (dirNames.filter eligibleB) with
        | some attr => exact ⟨attr, rfl⟩
        | none => exact ⟨name, rfl⟩

/-- Whatever `_find_similar_attr` returns is either the candidate itself or an
eligible member of the supplied dir listing. -/
theorem find_similar_attr_result {sound : Name → Name} {dirNames : List Name}
    {name r : Name}
    (h : find_similar_attr sound dirNames name = Except.ok r) :
    r = name ∨ (r ∈ dirNames ∧ eligibleB r = true) := by
  cases ho : off_limits name with
  | error e => rw [find_similar_attr_err_guard ho] at h; cases h
  | ok b =>
    cases b with
    | true =>
      rw [find_similar_attr_off ho] at h
      cases h; exact Or.inl rfl
    | false =>
      cases hf : filterOffLimits dirNames with
      | error e => rw [find_similar_attr_err_filter ho hf] at h; cases h
      | ok elig =>
        rw [find_similar_attr_eligible ho hf] at h
        cases hscan : orthoScan (pyLower name) elig with
        | some attr =>
          rw [hscan] at h
          cases h
          exact Or.inr (filterOffLimits_ok_mem hf r
            (List.mem_of_find?_eq_some hscan))
        | none =>
          rw [hscan] at h
          by_cases hs : get_name_sound sound name = []
          · rw [if_pos hs] at h; cases h; exact Or.inl rfl
          · rw [if_neg hs] at h
            cases hsc : soundScan sound (get_name_sound sound name) elig with
            | some attr =>
              rw [hsc] at h
              cases h
              exact Or.inr (filterOffLimits_ok_mem hf r
                (List.mem_of_find?_eq_some hsc))
            | none => rw [hsc] at h; cases h; exact Or.inl rfl

/-! ### The reachable-state invariant -/

theorem pairOK_symm {sound : Name → Name} {a b : Name} (h : PairOK sound a b) :
    PairOK sound b a := by
  obtain ⟨h1, h2⟩ := h
  refine ⟨by rw [orthoCond_comm]; exact h1, ?_⟩
  intro hba
  rw [hba]
  exact h2 hba.symm

theorem goodR_symm (sound : Name → Name) :
    Symmetric (fun a b : Name =>
      eligibleB a = true → eligibleB b = true → PairOK sound a b) := by
  intro a b h hb ha
  exact pairOK_symm (h ha hb)

theorem orthoScan_eq (nl : Name) (l : List Name) :
    orthoScan nl l = l.find? (fun attr => orthoCond nl (pyLower attr)) := rfl

theorem soundScan_eq (sound : Name → Name) (ns : Name) (l : List Name) :
    soundScan sound ns l =
      l.find? (fun attr => decide (get_name_sound sound attr = ns)) := rfl

/-- When an eligible candidate that is not yet stored resolves to itself, no
eligible stored name matched it in either pass. -/
theorem resolve_fresh_facts {sound : Name → Name} {st : State V} {n : Name}
    (hk : ∀ k ∈ stateKeys st, k ≠ [])
    (h0 : off_limits n = Except.ok false)
    (hnm : ¬ n ∈ stateKeys st)
    (h : find_similar_attr sound (dirList st) n = Except.ok n) :
    ∀ e ∈ stateKeys st, eligibleB e = true →
      orthoCond (pyLower n) (pyLower e) = false ∧
      (sound n = sound e → sound n = []) := by
  intro e he hee
  have hfe : filterOffLimits (dirList st) =
      Except.ok ((dirList st).filter eligibleB) := filterOffLimits_dirList hk
  rw [find_similar_attr_eligible h0 hfe] at h
  have heMem : e ∈ (dirList st).filter eligibleB :=
    mem_filter_dirList.mpr ⟨he, hee⟩
  cases hscan : orthoScan (pyLower n) ((dirList st).filter eligibleB) with
  | some attr =>
    rw [hscan] at h
    cases h
    rw [orthoScan_eq] at hscan
    have hmem := mem_filter_dirList.mp (List.mem_of_find?_eq_some hscan)
    exact absurd hmem.1 hnm
  | none =>
    rw [hscan] at h
    rw [orthoScan_eq] at hscan
    have hortho : orthoCond (pyLower n) (pyLower e) = false := by
      have hno := List.find?_eq_none.mp hscan e heMem
      cases hc : orthoCond (pyLower n) (pyLower e)
      · rfl
      · exact absurd hc hno
    refine ⟨hortho, ?_⟩
    by_cases hs : get_name_sound sound n = []
    · intro _; exact hs
    · rw [if_neg hs] at h
      cases hsc : soundScan sound (get_name_sound sound n)
          ((dirList st).filter eligibleB) with
      | some attr =>
        rw [hsc] at h
        cases h
        rw [soundScan_eq] at hsc
        have hmem := mem_filter_dirList.mp (List.mem_of_find?_eq_some hsc)
        exact absurd hmem.1 hnm
      | none =>
        intro hne'
        rw [soundScan_eq] at hsc
        have hno : ¬ (get_name_sound sound e = get_name_sound sound n) := by
          simpa using List.find?_eq_none.mp hsc e heMem
        exact absurd hne'.symm hno

theorem goodState_nil (sound : Name → Name) : GoodState sound ([] : State V) :=
  ⟨fun k hk => absurd hk (List.not_mem_nil k), List.nodup_nil, List.Pairwise.nil⟩

theorem goodState_setattr {sound : Name → Name} {st st' : State V} {n : Name}
    {v : V} (hg : GoodState sound st) (h : fuzSetattr sound st n v = Except.ok st') :
    GoodState sound st' := by
  obtain ⟨hne, hnd, hpw⟩ := hg
  cases hfind : find_similar_attr sound (dirList st) n with
  | error e => rw [fuzSetattr, hfind] at h; cases h
  | ok r =>
    rw [fuzSetattr, hfind] at h
    cases h
    by_cases hrmem : r ∈ stateKeys st
    · refine ⟨?_, ?_, ?_⟩
      · intro k hk
        rw [stateKeys_storeWrite_of_mem v hrmem] at hk
        exact hne k hk
      · rw [stateKeys_storeWrite_of_mem v hrmem]; exact hnd
      · rw [stateKeys_storeWrite_of_mem v hrmem]; exact hpw
    · have hrn : r = n := by
        rcases find_similar_attr_result hfind with h' | h'
        · exact h'
        · rcases mem_dirList.mp h'.1 with hc | hc
          · have hfalse := classAttrNames_not_eligible r hc
            rw [h'.2] at hfalse; cases hfalse
          · exact absurd hc hrmem
      subst hrn
      have hkeys : stateKeys (storeWrite st r v) = stateKeys st ++ [r] :=
        stateKeys_storeWrite_of_not_mem v hrmem
      have hnnil : r ≠ [] := by
        intro hnil
        subst hnil
        have hgu : off_limits ([] : Name) = Except.error PyErr.indexError := rfl
        rw [find_similar_attr_err_guard hgu] at hfind
        cases hfind
      refine ⟨?_, ?_, ?_⟩
      · intro k hk
        rw [hkeys] at hk
        rcases List.mem_append.mp hk with h' | h'
        · exact hne k h'
        · rw [List.mem_singleton.mp h']; exact hnnil
      · rw [hkeys, List.nodup_append]
        exact ⟨hnd, List.nodup_singleton r,
          fun a ha hb => hrmem ((List.mem_singleton.mp hb) ▸ ha)⟩
      · rw [hkeys, List.pairwise_append]
        refine ⟨hpw, List.pairwise_singleton _ _, ?_⟩
        intro a ha b hb
        rw [List.mem_singleton.mp hb]
        intro hea heb
        have h0 : off_limits r = Except.ok false := by
          rw [off_limits_of_ne_nil hnnil, heb]; rfl
        have hfacts := resolve_fresh_facts hne h0 hrmem hfind a ha hea
        exact pairOK_symm ⟨hfacts.1, hfacts.2⟩

theorem goodState_applyOps {sound : Name → Name} :
    ∀ {ops : List (Name × V)} {st st' : State V},
      GoodState sound st → applyOps sound st ops = Except.ok st' →
        GoodState sound st'
  | [], st, st', hg, h => by
    simp only [applyOps] at h
    cases h
    exact hg
  | (n, v) :: ops, st, st', hg, h => by
    simp only [applyOps] at h
    cases hset : fuzSetattr sound st n v with
    | error e => rw [hset] at h; cases h
    | ok st1 =>
      rw [hset] at h
      exact goodState_applyOps (goodState_setattr hg hset) h

theorem reachable_goodState {sound : Name → Name} {st : State V}
    (h : Reachable sound st) : GoodState sound st := by
  obtain ⟨ops, hops⟩ := h
  exact goodState_applyOps (goodState_nil sound) hops

/-- On a reachable state, every stored name resolves to itself: no other
stored name can match it, and it matches itself in the orthographic pass. -/
theorem resolve_stored {sound : Name → Name} {st : State V} {m : Name}
    (hg : GoodState sound st) (hm : m ∈ stateKeys st) :
    find_similar_attr sound (dirList st) m = Except.ok m := by
  obtain ⟨hne, hnd, hpw⟩ := hg
  have hmnil : m ≠ [] := hne m hm
  cases hb : eligibleB m with
  | false =>
    apply find_similar_attr_off
    rw [off_limits_of_ne_nil hmnil, hb]; rfl
  | true =>
    have h0 : off_limits m = Except.ok false := by
      rw [off_limits_of_ne_nil hmnil, hb]; rfl
    rw [find_similar_attr_eligible h0 (filterOffLimits_dirList hne)]
    have hmem : m ∈ (dirList st).filter eligibleB :=
      mem_filter_dirList.mpr ⟨hm, hb⟩
    have hscan : orthoScan (pyLower m) ((dirList st).filter eligibleB) = some m := by
      rw [orthoScan_eq]
      apply find?_first hmem (orthoCond_self (pyLower m))
      intro x hx hpx
      by_contra hxm
      have hx' := mem_filter_dirList.mp hx
      have hR := (hpw.forall (goodR_symm sound)) hm hx'.1
        (fun hh => hxm hh.symm)
      have hpair := hR hb hx'.2
      rw [hpair.1] at hpx
      cases hpx
    rw [hscan]

theorem filter_dirList_sorted (st : State V) :
    List.Sorted nameLe ((dirList st).filter eligibleB) :=
  List.Pairwise.filter eligibleB (dirList_sorted st)

/-- Full characterization of an attribute read on a reachable state, for a
nonempty requested name that is not one of the class's own method names:
the read raises the missing-attribute error exactly when resolution left the
name unchanged and the name is absent from storage, and otherwise returns
the value stored under the resolved name. -/
theorem fuzGetattr_characterization {sound : Name → Name} {st : State V}
    {n : Name} (hg : GoodState sound st) (hn : n ≠ [])
    (_hcls : ¬ n ∈ classAttrNames) :
    ∃ r, find_similar_attr sound (dirList st) n = Except.ok r ∧
      ((fuzGetattr sound st n =
          Except.error (PyErr.attributeError fuzclassName n)) ↔
        (r = n ∧ storeRead st n = none)) ∧
      (¬ (r = n ∧ storeRead st n = none) →
        ∃ v, storeRead st r = some v ∧ fuzGetattr sound st n = Except.ok v) := by
  obtain ⟨r, hr⟩ : ∃ r, find_similar_attr sound (dirList st) n = Except.ok r :=
    find_similar_attr_total hn (dirList_ne_nil hg.1)
  refine ⟨r, hr, ?_⟩
  cases hread : storeRead st n with
  | some v =>
    have hmem : n ∈ stateKeys st := storeRead_some_iff_mem.mp ⟨v, hread⟩
    have hrn : r = n := by
      have hself := resolve_stored hg hmem
      rw [hr] at hself
      cases hself; rfl
    have hget : fuzGetattr sound st n = Except.ok v := by
      simp only [fuzGetattr, hread]
    constructor
    · rw [hget]
      constructor
      · intro hcontra; cases hcontra
      · rintro ⟨-, habs⟩; cases habs
    · intro _
      refine ⟨v, ?_, hget⟩
      rw [hrn]; exact hread
  | none =>
    have hget0 : fuzGetattr sound st n =
        (if r = n then Except.error (PyErr.attributeError fuzclassName n)
         else match storeRead st r with
              | some v => Except.ok v
              | none => Except.error (PyErr.attributeError fuzclassName r)) := by
      simp only [fuzGetattr, hread, hr]
    by_cases hrn : r = n
    · rw [if_pos hrn] at hget0
      refine ⟨Iff.intro (fun _ => ⟨hrn, rfl⟩) (fun _ => hget0), ?_⟩
      intro hcon
      exact absurd ⟨hrn, rfl⟩ hcon
    · have hrkeys : r ∈ stateKeys st := by
        rcases find_similar_attr_result hr with h' | h'
        · exact absurd h' hrn
        · rcases mem_dirList.mp h'.1 with hc | hc
          · have hf := classAttrNames_not_eligible r hc
            rw [h'.2] at hf; cases hf
          · exact hc
      obtain ⟨v, hv⟩ := storeRead_some_iff_mem.mpr hrkeys
      rw [if_neg hrn, hv] at hget0
      refine ⟨?_, ?_⟩
      · constructor
        · intro hcontra
          rw [hget0] at hcontra
          cases hcontra
        · rintro ⟨habs, -⟩
          exact absurd habs hrn
      · intro _
        exact ⟨v, hv, hget0⟩

/-! ### The claims -/

/-- C2: for every eligible (not off-limits) candidate, the orthographic pass
returns the first eligible existing name `e`, in iteration order, such that
lower-cased `e` equals the lower-cased candidate, or the first and last
characters match case-insensitively and the symmetric difference of the sets
of characters strictly between the first and last character of `e` and of the
candidate has fewer than 2 elements; the original-cased `e` is returned.  The
conclusion holds for every phonetic encoder, so the phonetic pass is never
consulted. -/
theorem claim_C2 (sound : Name → Name) (dirNames : List Name) (cand e : Name)
    (h0 : off_limits cand = Except.ok false)
    {elig : List Name}
    (hf : filterOffLimits dirNames = Except.ok elig)
    (hfind : elig.find? (fun x => decide (specOrthoMatch cand x)) = some e) :
    find_similar_attr sound dirNames cand = Except.ok e := by
  rw [find_similar_attr_eligible h0 hf, orthoScan_eq]
  have hpred : (fun attr => orthoCond (pyLower cand) (pyLower attr)) =
      (fun x => decide (specOrthoMatch cand x)) := by
    funext x
    exact orthoCond_eq_decide cand x
  rw [hpred, hfind]

theorem claim_C2_witness :
    find_similar_attr soundNil [("teh".toList)] ("th".toList) =
      Except.ok ("teh".toList) :=
  claim_C2 soundNil [("teh".toList)] ("th".toList) ("teh".toList) rfl rfl rfl

/-- C3: once the orthographic pass has found nothing, the phonetic pass is
skipped entirely when the candidate's code is empty (the candidate comes back
unchanged), and otherwise the first eligible existing name whose code equals
the candidate's code exactly is returned. -/
theorem claim_C3 (sound : Name → Name) (dirNames : List Name) (cand : Name)
    {elig : List Name}
    (h0 : off_limits cand = Except.ok false)
    (hf : filterOffLimits dirNames = Except.ok elig)
    (hnone : orthoScan (pyLower cand) elig = none) :
    (get_name_sound sound cand = [] →
      find_similar_attr sound dirNames cand = Except.ok cand) ∧
    (get_name_sound sound cand ≠ [] →
      ∀ e, elig.find?
          (fun x => decide (get_name_sound sound x = get_name_sound sound cand)) =
            some e →
        find_similar_attr sound dirNames cand = Except.ok e) := by
  constructor
  · intro hs
    rw [find_similar_attr_eligible h0 hf, hnone, if_pos hs]
  · intro hs e hfind
    rw [find_similar_attr_eligible h0 hf, hnone, if_neg hs, soundScan_eq, hfind]

theorem claim_C3_witness :
    find_similar_attr soundTh [("teh".toList)] ("the".toList) =
      Except.ok ("teh".toList) :=
  (claim_C3 soundTh [("teh".toList)] ("the".toList) rfl rfl rfl).2
    (by decide) ("teh".toList) (by decide)

/-- C5: resolution is total for every nonempty candidate and every existing
sequence of nonempty names, but the code raises IndexError on the empty
candidate (`name[0]` in `_off_limits`), contradicting the claim that it never
fails. -/
theorem claim_C5 :
    (find_similar_attr soundNil ([] : List Name) ([] : Name) =
      Except.error PyErr.indexError) ∧
    ∀ (sound : Name → Name) (dirNames : List Name) (cand : Name),
      cand ≠ [] → (∀ a ∈ dirNames, a ≠ []) →
      ∃ r, find_similar_attr sound dirNames cand = Except.ok r :=
  ⟨rfl, fun _ _ _ h1 h2 => find_similar_attr_total h1 h2⟩

theorem claim_C5_witness :
    ∃ r, find_similar_attr soundNil [("ab".toList)] ("xy".toList) =
      Except.ok r :=
  claim_C5.2 soundNil [("ab".toList)] ("xy".toList) (by decide) (by decide)

/-- C7: every name of length 1 or starting with the underscore is reported
off-limits and resolves to itself unchanged, for every encoder and every
existing sequence; but on the empty name the guard raises IndexError instead
of returning true (`name[0]` is evaluated before the length test). -/
theorem claim_C7 :
    (off_limits ([] : Name) = Except.error PyErr.indexError) ∧
    ∀ n : Name, (n.length = 1 ∨ n.head? = some '_') →
      off_limits n = Except.ok true ∧
      ∀ (sound : Name → Name) (dirNames : List Name),
        find_similar_attr sound dirNames n = Except.ok n := by
  refine ⟨rfl, ?_⟩
  intro n hn
  have hoff : off_limits n = Except.ok true := by
    cases n with
    | nil =>
      rcases hn with h | h
      · cases h
      · cases h
    | cons c rest =>
      rcases hn with h | h
      · have hlen : rest.length = 0 := by simpa using h
        have hrest : rest = [] := List.eq_nil_of_length_eq_zero hlen
        subst hrest
        simp [off_limits]
      · have hc : c = '_' := by simpa using h
        subst hc
        simp [off_limits]
  exact ⟨hoff, fun sound dirNames => find_similar_attr_off hoff⟩

theorem claim_C7_witness :
    (off_limits ("_x".toList) = Except.ok true ∧
      find_similar_attr soundNil [("ab".toList)] ("_x".toList) =
        Except.ok ("_x".toList)) ∧
    (off_limits ("q".toList) = Except.ok true ∧
      find_similar_attr soundNil [("qq".toList)] ("q".toList) =
        Except.ok ("q".toList)) :=
  ⟨⟨(claim_C7.2 ("_x".toList) (by decide)).1,
    (claim_C7.2 ("_x".toList) (by decide)).2 soundNil [("ab".toList)]⟩,
   ⟨(claim_C7.2 ("q".toList) (by decide)).1,
    (claim_C7.2 ("q".toList) (by decide)).2 soundNil [("qq".toList)]⟩⟩

/-- C8: a write never fails for a nonempty name on a store whose keys are
nonempty (every reachable store is such); but the code raises IndexError on
the empty name, contradicting the claim that writes never raise for every
name. -/
theorem claim_C8 :
    (fuzSetattr soundNil ([] : State Nat) ([] : Name) 0 =
      Except.error PyErr.indexError) ∧
    ∀ (W : Type) (sound : Name → Name) (st : State W) (n : Name) (v : W),
      n ≠ [] → (∀ k ∈ stateKeys st, k ≠ []) →
      ∃ st', fuzSetattr sound st n v = Except.ok st' := by
  refine ⟨rfl, ?_⟩
  intro W sound st n v hn hk
  obtain ⟨r, hr⟩ : ∃ r, find_similar_attr sound (dirList st) n = Except.ok r :=
    find_similar_attr_total hn (dirList_ne_nil hk)
  exact ⟨storeWrite st r v, by rw [fuzSetattr, hr]⟩

theorem claim_C8_witness :
    ∃ st', fuzSetattr soundNil ([] : State Nat) ("ab".toList) 7 =
      Except.ok st' :=
  claim_C8.2 Nat soundNil ([] : State Nat) ("ab".toList) 7 (by decide)
    (by decide)

/-- C10: an eligible two-character candidate matches, in the orthographic
pass, any eligible existing name sharing its first and last characters
case-insensitively whose interior letters comprise at most one distinct
character: the empty interior set against a set of at most one element has
symmetric difference below 2; in particular resolve returns that name when it
is the existing sequence. -/
theorem claim_C10 (sound : Name → Name) (c1 c2 : Char) (e : Name)
    (h0 : off_limits [c1, c2] = Except.ok false)
    (he : off_limits e = Except.ok false)
    (hh : (pyLower e).headD 'a' = Char.toLower c1)
    (hl : (pyLower e).getLastD 'a' = Char.toLower c2)
    (hi : (innerSet (pyLower e)).length ≤ 1) :
    orthoCond (pyLower [c1, c2]) (pyLower e) = true ∧
    find_similar_attr sound [e] [c1, c2] = Except.ok e := by
  have hcond : orthoCond (pyLower [c1, c2]) (pyLower e) = true := by
    have e1 : decide ((pyLower e).headD 'a' = (pyLower [c1, c2]).headD 'a') =
        true := decide_eq_true (by rw [hh]; rfl)
    have e2 : decide
        ((pyLower e).getLastD 'a' = (pyLower [c1, c2]).getLastD 'a') =
        true := decide_eq_true (by rw [hl]; rfl)
    have e3 : decide (symmDiffCard (innerSet (pyLower [c1, c2]))
        (innerSet (pyLower e)) < 2) = true := by
      apply decide_eq_true
      have hz : innerSet (pyLower [c1, c2]) = [] := rfl
      rw [hz]
      have hsd : symmDiffCard [] (innerSet (pyLower e)) =
          (innerSet (pyLower e)).length := by
        simp [symmDiffCard]
      rw [hsd]
      exact Nat.lt_of_le_of_lt hi one_lt_two
    unfold orthoCond
    rw [e1, e2, e3]
    simp
  refine ⟨hcond, ?_⟩
  have hf : filterOffLimits [e] = Except.ok [e] := by
    rw [filterOffLimits, he]
    rfl
  have hfind : List.find?
      (fun attr => orthoCond (pyLower [c1, c2]) (pyLower attr)) [e] = some e :=
    find?_first (List.mem_singleton_self e) hcond
      (fun x hx _ => List.mem_singleton.mp hx)
  rw [find_similar_attr_eligible h0 hf, orthoScan_eq, hfind]

theorem claim_C10_witness :
    orthoCond (pyLower ("ab".toList)) (pyLower ("axxxxb".toList)) = true ∧
    find_similar_attr soundNil [("axxxxb".toList)] ("ab".toList) =
      Except.ok ("axxxxb".toList) :=
  claim_C10 soundNil 'a' 'b' ("axxxxb".toList)
    rfl rfl (by decide) (by decide) (by decide)

/-- C1 counterexample: the existing-name sequence the matcher iterates is
`dir()` output, which Python sorts alphabetically — not definition order.
After defining `abec` first and `abdc` second (neither matches the other, so
both are stored), the candidate `abc` orthographically matches both, yet the
matcher returns the later-defined but alphabetically earlier `abdc`, refuting
"earliest-defined wins". -/
theorem claim_C1_counterexample :
    applyOps soundNil ([] : State Nat)
        [(("abec".toList), 0), (("abdc".toList), 1)] =
      Except.ok [(("abec".toList), 0), (("abdc".toList), 1)] ∧
    stateKeys ([(("abec".toList), 0), (("abdc".toList), 1)] : State Nat) =
      [("abec".toList), ("abdc".toList)] ∧
    orthoCond (pyLower ("abc".toList)) (pyLower ("abec".toList)) = true ∧
    orthoCond (pyLower ("abc".toList)) (pyLower ("abdc".toList)) = true ∧
    find_similar_attr soundNil
        (dirList ([(("abec".toList), 0), (("abdc".toList), 1)] : State Nat))
        ("abc".toList) = Except.ok ("abdc".toList) :=
  ⟨rfl, rfl, rfl, rfl, rfl⟩

/-- C1 (amended): the existing-name sequence iterated by the matcher is the
alphabetically sorted `dir()` listing; when two (or more) eligible existing
names satisfy the orthographic pass for the same candidate, the returned
name also satisfies the pass and precedes both alphabetically — the
alphabetically earliest matching name wins, not the earliest defined. -/
theorem claim_C1 {W : Type} (sound : Name → Name) (st : State W)
    (name e1 e2 : Name)
    (h0 : off_limits name = Except.ok false)
    (hk : ∀ k ∈ stateKeys st, k ≠ [])
    (h1 : e1 ∈ (dirList st).filter eligibleB)
    (h2 : e2 ∈ (dirList st).filter eligibleB)
    (m1 : orthoCond (pyLower name) (pyLower e1) = true)
    (m2 : orthoCond (pyLower name) (pyLower e2) = true) :
    ∃ r, find_similar_attr sound (dirList st) name = Except.ok r ∧
      orthoCond (pyLower name) (pyLower r) = true ∧
      nameLe r e1 ∧ nameLe r e2 := by
  have hfe : filterOffLimits (dirList st) =
      Except.ok ((dirList st).filter eligibleB) := filterOffLimits_dirList hk
  cases hscan : orthoScan (pyLower name) ((dirList st).filter eligibleB) with
  | none =>
    rw [orthoScan_eq] at hscan
    exact absurd m1 (by simpa using List.find?_eq_none.mp hscan e1 h1)
  | some r =>
    have hres : find_similar_attr sound (dirList st) name = Except.ok r := by
      rw [find_similar_attr_eligible h0 hfe, hscan]
    rw [orthoScan_eq] at hscan
    have hcond0 := List.find?_some hscan
    have hcond : orthoCond (pyLower name) (pyLower r) = true := hcond0
    have hmin1 : nameLe r e1 :=
      find?_min_of_sorted (filter_dirList_sorted st) hscan e1 h1 m1
    have hmin2 : nameLe r e2 :=
      find?_min_of_sorted (filter_dirList_sorted st) hscan e2 h2 m2
    exact ⟨r, hres, hcond, hmin1, hmin2⟩

theorem claim_C1_witness :
    ∃ r, find_similar_attr soundNil
        (dirList ([(("abec".toList), 0), (("abdc".toList), 1)] : State Nat))
        ("abc".toList) = Except.ok r ∧
      orthoCond (pyLower ("abc".toList)) (pyLower r) = true ∧
      nameLe r ("abdc".toList) ∧ nameLe r ("abec".toList) := by
  have hfilter : (dirList ([(("abec".toList), 0), (("abdc".toList), 1)] :
      State Nat)).filter eligibleB = [("abdc".toList), ("abec".toList)] := rfl
  apply claim_C1 soundNil
    ([(("abec".toList), 0), (("abdc".toList), 1)] : State Nat)
    ("abc".toList) ("abdc".toList) ("abec".toList) rfl (by decide)
  · rw [hfilter]; decide
  · rw [hfilter]; decide
  · rfl
  · rfl

/-- C4: the missing-attribute error (AttributeError carrying the owning type
identity and the originally requested name) is raised on a read exactly when
resolution left the name unchanged and that exact name is absent from
storage, and in every other case the read returns the value stored under the
resolved name — for every reachable state and every nonempty requested name
outside the class's own (underscore-prefixed) method names.  On the empty
name, however, the read raises IndexError from the guard instead, so the
claim's "in every other case get returns the stored value" fails there. -/
theorem claim_C4 :
    (fuzGetattr soundNil ([] : State Nat) ([] : Name) =
      Except.error PyErr.indexError) ∧
    ∀ (W : Type) (sound : Name → Name) (st : State W) (n : Name),
      Reachable sound st → n ≠ [] → ¬ n ∈ classAttrNames →
      ∃ r, find_similar_attr sound (dirList st) n = Except.ok r ∧
        ((fuzGetattr sound st n =
            Except.error (PyErr.attributeError fuzclassName n)) ↔
          (r = n ∧ storeRead st n = none)) ∧
        (¬ (r = n ∧ storeRead st n = none) →
          ∃ v, storeRead st r = some v ∧ fuzGetattr sound st n = Except.ok v) :=
  ⟨rfl, fun _ _ _ _ hreach hn hcls =>
    fuzGetattr_characterization (reachable_goodState hreach) hn hcls⟩

theorem claim_C4_witness :
    ∃ r, find_similar_attr soundNil
        (dirList ([(("teh".toList), 1)] : State Nat)) ("the".toList) =
      Except.ok r ∧
      ((fuzGetattr soundNil ([(("teh".toList), 1)] : State Nat) ("the".toList) =
          Except.error (PyErr.attributeError fuzclassName ("the".toList))) ↔
        (r = ("the".toList) ∧
          storeRead ([(("teh".toList), 1)] : State Nat) ("the".toList) = none)) ∧
      (¬ (r = ("the".toList) ∧
            storeRead ([(("teh".toList), 1)] : State Nat) ("the".toList) = none) →
        ∃ v, storeRead ([(("teh".toList), 1)] : State Nat) r = some v ∧
          fuzGetattr soundNil ([(("teh".toList), 1)] : State Nat) ("the".toList) =
            Except.ok v) :=
  claim_C4.2 Nat soundNil ([(("teh".toList), 1)] : State Nat) ("the".toList)
    ⟨[(("teh".toList), 1)], rfl⟩ (by decide) (by decide)

/-- C6 (overwrite law): after `set(a, v1)` and then `set(b, v2)` where `b`
resolves to `a` (and `a ≠ b`), reading `a` yields `v2`, and storage gains no
entry under `b` — the second write landed on the pre-existing property
`a`. -/
theorem claim_C6 {W : Type} (sound : Name → Name) (st0 st1 st2 : State W)
    (a b : Name) (v1 v2 : W)
    (_h1 : fuzSetattr sound st0 a v1 = Except.ok st1)
    (h2 : find_similar_attr sound (dirList st1) b = Except.ok a)
    (h3 : a ≠ b)
    (h4 : fuzSetattr sound st1 b v2 = Except.ok st2) :
    fuzGetattr sound st2 a = Except.ok v2 ∧
    storeRead st2 b = storeRead st1 b := by
  have hst2 : st2 = storeWrite st1 a v2 := by
    rw [fuzSetattr, h2] at h4
    cases h4
    rfl
  subst hst2
  constructor
  · have hread : storeRead (storeWrite st1 a v2) a = some v2 :=
      storeRead_storeWrite_self st1 a v2
    simp only [fuzGetattr, hread]
  · exact storeRead_storeWrite_other v2 (fun hh => h3 hh.symm)

theorem claim_C6_witness :
    fuzGetattr soundNil ([(("teh".toList), 2)] : State Nat) ("teh".toList) =
      Except.ok 2 ∧
    storeRead ([(("teh".toList), 2)] : State Nat) ("th".toList) =
      storeRead ([(("teh".toList), 1)] : State Nat) ("th".toList) :=
  claim_C6 soundNil ([] : State Nat) ([(("teh".toList), 1)] : State Nat)
    ([(("teh".toList), 2)] : State Nat) ("teh".toList) ("th".toList) 1 2
    rfl rfl (by decide) rfl

/-- C9 counterexample: with an encoder that yields no codes (so only the
orthographic pass could ever match), after `set("teh", 1)` the read
`get("the")` raises the missing-attribute error rather than returning 1:
"teh" and "the" do not share their last letter, and the symmetric difference
of their inner-letter sets is 2, not 0, so the orthographic pass does not
match them. -/
theorem claim_C9_counterexample :
    fuzSetattr soundNil ([] : State Nat) ("teh".toList) 1 =
      Except.ok [(("teh".toList), 1)] ∧
    fuzGetattr soundNil ([(("teh".toList), 1)] : State Nat) ("the".toList) =
      Except.error (PyErr.attributeError fuzclassName ("the".toList)) ∧
    orthoCond (pyLower ("the".toList)) (pyLower ("teh".toList)) = false ∧
    symmDiffCard (innerSet (pyLower ("the".toList)))
      (innerSet (pyLower ("teh".toList))) = 2 :=
  ⟨rfl, rfl, rfl, rfl⟩

/-- C9 (amended): after `set("teh", 1)`, the read `get("the")` returns 1
precisely through the phonetic pass: it does so whenever the encoder assigns
"the" and "teh" the same nonempty code (the orthographic pass cannot match
them, since the last letters differ and the inner-letter-set symmetric
difference is 2). -/
theorem claim_C9 (sound : Name → Name)
    (h1 : get_name_sound sound ("the".toList) = get_name_sound sound ("teh".toList))
    (h2 : get_name_sound sound ("the".toList) ≠ []) :
    fuzSetattr sound ([] : State Nat) ("teh".toList) 1 =
      Except.ok [(("teh".toList), 1)] ∧
    fuzGetattr sound ([(("teh".toList), 1)] : State Nat) ("the".toList) =
      Except.ok 1 := by
  have hset : find_similar_attr sound (dirList ([] : State Nat)) ("teh".toList) =
      Except.ok ("teh".toList) := by
    have h0 : off_limits ("teh".toList) = Except.ok false := rfl
    have hf : filterOffLimits (dirList ([] : State Nat)) = Except.ok [] := rfl
    rw [find_similar_attr_eligible h0 hf]
    have hsc : orthoScan (pyLower ("teh".toList)) ([] : List Name) = none := rfl
    rw [hsc]
    by_cases hs : get_name_sound sound ("teh".toList) = []
    · rw [if_pos hs]
    · rw [if_neg hs]
      have hsc2 : soundScan sound (get_name_sound sound ("teh".toList))
          ([] : List Name) = none := rfl
      rw [hsc2]
  constructor
  · rw [fuzSetattr, hset]
    rfl
  · have hres : find_similar_attr sound
        (dirList ([(("teh".toList), 1)] : State Nat)) ("the".toList) =
        Except.ok ("teh".toList) := by
      have h0 : off_limits ("the".toList) = Except.ok false := rfl
      have hf : filterOffLimits (dirList ([(("teh".toList), 1)] : State Nat)) =
          Except.ok [("teh".toList)] := rfl
      rw [find_similar_attr_eligible h0 hf]
      have hsc : orthoScan (pyLower ("the".toList)) [("teh".toList)] = none :=
        rfl
      rw [hsc, if_neg h2, soundScan_eq]
      have hp : (fun attr => decide (get_name_sound sound attr =
          get_name_sound sound ("the".toList))) ("teh".toList) = true := by
        simp only [decide_eq_true_eq]
        exact h1.symm
      have hfind : List.find? (fun attr => decide (get_name_sound sound attr =
          get_name_sound sound ("the".toList))) [("teh".toList)] =
          some ("teh".toList) :=
        find?_first (List.mem_singleton_self _) hp
          (fun x hx _ => List.mem_singleton.mp hx)
      rw [hfind]
    have hread : storeRead ([(("teh".toList), 1)] : State Nat) ("the".toList) =
        none := rfl
    have hread2 : storeRead ([(("teh".toList), 1)] : State Nat) ("teh".toList) =
        some 1 := rfl
    have hneq : ¬ (("teh".toList) = ("the".toList)) := by decide
    simp only [fuzGetattr, hread, hres, if_neg hneq, hread2]

theorem claim_C9_witness :
    fuzSetattr soundTh ([] : State Nat) ("teh".toList) 1 =
      Except.ok [(("teh".toList), 1)] ∧
    fuzGetattr soundTh ([(("teh".toList), 1)] : State Nat) ("the".toList) =
      Except.ok 1 :=
  claim_C9 soundTh (by decide) (by decide)

end FuzVerify
